import Mathlib

/-!
Verification of the H1-type stateful bus encoder / receiver decoder
(ADuC841 transmitter/receiver project).

The transmitter core lives in `Stage1_TRANSMITTER(Tx)_MCU/bus_encoder.c`
(`compute_syndrome_from_bus`, `find_minimal_w`, `process_nibble`), the
serializer in `shift_output.c` (`output_to_shift_registers`), and the
receiver sampling in `Stage2_RECEIVER(Rx)_MCU/Rx_input.c`
(`read_X_from_bus`, in an active-high and an active-low variant).

Machine integers are embedded as `Nat` with explicit masking exactly where
the C code masks (`& BUS_STATE_MASK`, `& 0x0F`); all intermediate values
the C code stores in `uint8_t`/`uint16_t` are proved (or observed) to stay
within range, so no further wrap-around modelling is needed.
-/

namespace AducBus

/-- `HAMMING_N`: the code length n = 15 (bits 0..14 of the bus state),
per `header.h` / the comments throughout `bus_encoder.c`. -/
def HAMMING_N : Nat := 15

/-- `BUS_STATE_MASK = 0x7FFF`: only bits 0..14 of `current_bus_state`
are used (`main.c`). -/
def BUS_STATE_MASK : Nat := 0x7FFF

/-- The loop of `compute_syndrome_from_bus`: iterate `fuel` times with
current column index `c`; if the low bit of `t` is set, XOR the column
index into the running syndrome `syn`; then shift `t` right by one. -/
def syndromeAux : Nat → Nat → Nat → Nat → Nat
  | 0, _, _, syn => syn
  | fuel + 1, c, t, syn =>
      syndromeAux fuel (c + 1) (t >>> 1) (if t &&& 1 = 1 then syn ^^^ c else syn)

/-- `compute_syndrome_from_bus` (bus_encoder.c): mask the state to
bits 0..14, then run the column loop for `col_idx = 1..15`. -/
def compute_syndrome_from_bus (bus_state : Nat) : Nat :=
  syndromeAux HAMMING_N 1 (bus_state &&& BUS_STATE_MASK) 0

/-- `find_minimal_w` (bus_encoder.c): mask the target to 4 bits; zero
target needs no change, otherwise set the single bit at position
`s_target - 1`. -/
def find_minimal_w (s_target : Nat) : Nat :=
  if s_target &&& 0x0F = 0 then 0 else (1 <<< ((s_target &&& 0x0F) - 1))

/-- `process_nibble` (bus_encoder.c) acting on an explicit state
(the global `current_bus_state`): mask the symbol to 4 bits, compute the
old syndrome, the XOR target, the minimal-weight correction `w`, then
`current_bus_state ^= w; current_bus_state &= BUS_STATE_MASK`. -/
def process_nibble (state s_new : Nat) : Nat :=
  let s := s_new &&& 0x0F
  let s_old := compute_syndrome_from_bus state
  let s_target := s ^^^ s_old
  let w := find_minimal_w s_target
  (state ^^^ w) &&& BUS_STATE_MASK

/-- Feeding a sequence of symbols one at a time to `process_nibble`,
starting from the zero-initialized `current_bus_state` (`main.c`). -/
def encodeSeq (ss : List Nat) : Nat := ss.foldl process_nibble 0

/-- The spec-side syndrome formula: XOR of (j+1) over all set bit
positions j < n of x. -/
def xorOfSetBits (x : Nat) : Nat → Nat
  | 0 => 0
  | n + 1 => xorOfSetBits x n ^^^ (if x.testBit n then n + 1 else 0)

/-- Number of set bits of `x` among positions `j < n`. -/
def bitCount (x : Nat) : Nat → Nat
  | 0 => 0
  | n + 1 => bitCount x n + (if x.testBit n then 1 else 0)

/-- Hamming weight of a 15-bit vector. -/
def weight15 (x : Nat) : Nat := bitCount x 15

/- ### Bridging the syndrome loop to the spec formula -/

/-- Low-to-high accumulation mirroring the loop: XOR of the column index
`c + j` over the set bits `j < fuel` of `t`. -/
def xorLow : Nat → Nat → Nat → Nat
  | 0, _, _ => 0
  | fuel + 1, c, t =>
      (if t &&& 1 = 1 then c else 0) ^^^ xorLow fuel (c + 1) (t >>> 1)

/-- High-index-first accumulation of the same sum. -/
def xorHigh (c t : Nat) : Nat → Nat
  | 0 => 0
  | n + 1 => xorHigh c t n ^^^ (if t.testBit n then c + n else 0)

theorem syndromeAux_eq (fuel : Nat) :
    ∀ c t syn, syndromeAux fuel c t syn = syn ^^^ xorLow fuel c t := by
  induction fuel with
  | zero => intro c t syn; simp [syndromeAux, xorLow]
  | succ n ih =>
      intro c t syn
      simp only [syndromeAux, xorLow, ih]
      by_cases h : t &&& 1 = 1
      · rw [if_pos h, if_pos h, Nat.xor_assoc]
      · rw [if_neg h, if_neg h, Nat.zero_xor]

theorem low_bit_testBit (t : Nat) : (t &&& 1 = 1) ↔ t.testBit 0 = true := by
  rw [Nat.and_one_is_mod, Nat.testBit_zero, decide_eq_true_iff]

theorem xorHigh_shift (c t : Nat) :
    ∀ n, xorHigh c t (n + 1) =
      (if t.testBit 0 then c else 0) ^^^ xorHigh (c + 1) (t >>> 1) n := by
  intro n
  induction n with
  | zero => simp [xorHigh]
  | succ n ih =>
      have hbit : t.testBit (n + 1) = (t >>> 1).testBit n := by
        rw [Nat.testBit_shiftRight, Nat.add_comm 1 n]
      have harr : c + (n + 1) = (c + 1) + n := by omega
      calc xorHigh c t (n + 2)
          = xorHigh c t (n + 1) ^^^ (if t.testBit (n + 1) then c + (n + 1) else 0) := rfl
        _ = ((if t.testBit 0 then c else 0) ^^^ xorHigh (c + 1) (t >>> 1) n) ^^^
              (if (t >>> 1).testBit n then (c + 1) + n else 0) := by
              rw [ih, hbit, harr]
        _ = (if t.testBit 0 then c else 0) ^^^ xorHigh (c + 1) (t >>> 1) (n + 1) := by
              rw [Nat.xor_assoc]; rfl

theorem xorLow_eq_xorHigh (fuel : Nat) :
    ∀ c t, xorLow fuel c t = xorHigh c t fuel := by
  induction fuel with
  | zero => intro c t; rfl
  | succ n ih =>
      intro c t
      rw [xorHigh_shift]
      simp only [xorLow, ih]
      by_cases h : t &&& 1 = 1
      · rw [if_pos h, if_pos ((low_bit_testBit t).mp h)]
      · have h0 : t.testBit 0 = false := by
          cases hb : t.testBit 0
          · rfl
          · exact absurd ((low_bit_testBit t).mpr hb) h
        rw [if_neg h, h0, if_neg (by simp)]

theorem xorHigh_one (t : Nat) : ∀ n, xorHigh 1 t n = xorOfSetBits t n := by
  intro n
  induction n with
  | zero => rfl
  | succ n ih =>
      simp only [xorHigh, xorOfSetBits, ih, Nat.add_comm 1 n]

/-- The C syndrome loop computes exactly the spec formula on the masked
state. -/
theorem compute_syndrome_eq (x : Nat) :
    compute_syndrome_from_bus x = xorOfSetBits (x &&& BUS_STATE_MASK) 15 := by
  rw [compute_syndrome_from_bus, HAMMING_N, syndromeAux_eq, xorLow_eq_xorHigh,
    xorHigh_one, Nat.zero_xor]

/- ### Masking facts -/

theorem mask15_eq_mod (x : Nat) : x &&& BUS_STATE_MASK = x % 2 ^ 15 := by
  have : BUS_STATE_MASK = 2 ^ 15 - 1 := by norm_num [BUS_STATE_MASK]
  rw [this, Nat.and_pow_two_sub_one_eq_mod]

theorem mask15_lt (x : Nat) : x &&& BUS_STATE_MASK < 2 ^ 15 := by
  rw [mask15_eq_mod]; exact Nat.mod_lt _ (by norm_num)

theorem mask15_of_lt {x : Nat} (h : x < 2 ^ 15) : x &&& BUS_STATE_MASK = x := by
  rw [mask15_eq_mod, Nat.mod_eq_of_lt h]

theorem mask4_eq_mod (x : Nat) : x &&& 0x0F = x % 16 := by
  have h : (0x0F : Nat) = 2 ^ 4 - 1 := by norm_num
  rw [h, Nat.and_pow_two_sub_one_eq_mod]

theorem mask4_lt (x : Nat) : x &&& 0x0F < 16 := by
  rw [mask4_eq_mod]; exact Nat.mod_lt _ (by norm_num)

theorem mask4_of_lt {x : Nat} (h : x < 16) : x &&& 0x0F = x := by
  rw [mask4_eq_mod, Nat.mod_eq_of_lt h]

/- ### Linearity of the spec syndrome in a single flipped bit -/

theorem xorOfSetBits_congr {x y : Nat} :
    ∀ n, (∀ j, j < n → x.testBit j = y.testBit j) →
      xorOfSetBits x n = xorOfSetBits y n := by
  intro n
  induction n with
  | zero => intro _; rfl
  | succ n ih =>
      intro h
      simp only [xorOfSetBits]
      rw [ih (fun j hj => h j (Nat.lt_succ_of_lt hj)), h n (Nat.lt_succ_self n)]

theorem testBit_xor_two_pow (x k j : Nat) :
    (x ^^^ (1 <<< k)).testBit j = if j = k then !(x.testBit j) else x.testBit j := by
  have hk : (1 : Nat) <<< k = 2 ^ k := by rw [Nat.shiftLeft_eq, Nat.one_mul]
  rw [hk, Nat.testBit_xor]
  by_cases h : j = k
  · subst h; rw [if_pos rfl, Nat.testBit_two_pow_self, Bool.xor_true]
  · rw [if_neg h, Nat.testBit_two_pow_of_ne (fun hkj => h hkj.symm), Bool.xor_false]

theorem xorOfSetBits_flip {k : Nat} (x : Nat) :
    ∀ n, k < n →
      xorOfSetBits (x ^^^ (1 <<< k)) n = xorOfSetBits x n ^^^ (k + 1) := by
  intro n
  induction n with
  | zero => intro h; exact absurd h (Nat.not_lt_zero k)
  | succ n ih =>
      intro hk
      simp only [xorOfSetBits]
      by_cases hkn : k = n
      · subst hkn
        have hlow : xorOfSetBits (x ^^^ (1 <<< k)) k = xorOfSetBits x k := by
          apply xorOfSetBits_congr
          intro j hj
          rw [testBit_xor_two_pow, if_neg (Nat.ne_of_lt hj)]
        rw [hlow, testBit_xor_two_pow, if_pos rfl]
        cases hb : x.testBit k <;> simp [hb, Nat.xor_assoc]
      · have hkn' : k < n := Nat.lt_of_le_of_ne (Nat.lt_succ_iff.mp hk) hkn
        have hne : ¬(n = k) := fun h => hkn h.symm
        rw [ih hkn', testBit_xor_two_pow, if_neg hne, Nat.xor_assoc,
          Nat.xor_comm (k + 1), ← Nat.xor_assoc]

/- ### Range bounds -/

theorem xorOfSetBits_lt (x : Nat) : ∀ n, n ≤ 15 → xorOfSetBits x n < 16 := by
  intro n
  induction n with
  | zero => intro _; norm_num [xorOfSetBits]
  | succ n ih =>
      intro h
      have h16 : (16 : Nat) = 2 ^ 4 := by norm_num
      simp only [xorOfSetBits]
      have hterm : (if x.testBit n then n + 1 else 0) < 16 := by
        split <;> omega
      have hrec := ih (Nat.le_of_succ_le h)
      rw [h16] at hterm hrec ⊢
      exact Nat.xor_lt_two_pow hrec hterm

theorem syndrome_lt (x : Nat) : compute_syndrome_from_bus x < 16 := by
  rw [compute_syndrome_eq]
  exact xorOfSetBits_lt _ 15 (Nat.le_refl 15)

theorem find_minimal_w_lt (t : Nat) : find_minimal_w t < 2 ^ 15 := by
  simp only [find_minimal_w]
  by_cases h : t &&& 0x0F = 0
  · rw [if_pos h]; norm_num
  · rw [if_neg h, Nat.shiftLeft_eq, Nat.one_mul]
    have h15 : t &&& 0x0F ≤ 15 := Nat.lt_succ_iff.mp (mask4_lt t)
    calc (2 : Nat) ^ ((t &&& 0x0F) - 1) ≤ 2 ^ 14 :=
          Nat.pow_le_pow_right (by norm_num) (by omega)
      _ < 2 ^ 15 := by norm_num

/- ### The differential update in closed form -/

theorem process_nibble_eq (x s : Nat) :
    process_nibble x s =
      (x &&& BUS_STATE_MASK) ^^^
        find_minimal_w ((s &&& 0x0F) ^^^ compute_syndrome_from_bus x) := by
  rw [process_nibble]
  have hw := find_minimal_w_lt ((s &&& 0x0F) ^^^ compute_syndrome_from_bus x)
  rw [Nat.and_xor_distrib_right, mask15_of_lt hw]

/-- After any single call to `process_nibble`, the syndrome of the new
state equals the (masked) symbol just encoded. -/
theorem syndrome_after_process (x s : Nat) :
    compute_syndrome_from_bus (process_nibble x s) = s &&& 0x0F := by
  have hx'lt : x &&& BUS_STATE_MASK < 2 ^ 15 := mask15_lt x
  have hsoldlt : compute_syndrome_from_bus x < 16 := syndrome_lt x
  have hs'lt : s &&& 0x0F < 16 := mask4_lt s
  have htlt : (s &&& 0x0F) ^^^ compute_syndrome_from_bus x < 16 := by
    have h16 : (16 : Nat) = 2 ^ 4 := by norm_num
    rw [h16] at hs'lt hsoldlt ⊢
    exact Nat.xor_lt_two_pow hs'lt hsoldlt
  rw [process_nibble_eq]
  by_cases h0 : (s &&& 0x0F) ^^^ compute_syndrome_from_bus x = 0
  · rw [h0]
    have hfm : find_minimal_w 0 = 0 := rfl
    have hmm : compute_syndrome_from_bus (x &&& BUS_STATE_MASK)
        = compute_syndrome_from_bus x := by
      rw [compute_syndrome_eq, compute_syndrome_eq, mask15_of_lt hx'lt]
    rw [hfm, Nat.xor_zero, hmm, ← Nat.xor_eq_zero.mp h0]
  · have htmask := mask4_of_lt htlt
    have hfm : find_minimal_w ((s &&& 0x0F) ^^^ compute_syndrome_from_bus x)
        = 1 <<< (((s &&& 0x0F) ^^^ compute_syndrome_from_bus x) - 1) := by
      simp only [find_minimal_w, htmask, if_neg h0]
    have hk : ((s &&& 0x0F) ^^^ compute_syndrome_from_bus x) - 1 < 15 := by omega
    have hwlt : (1 : Nat) <<< (((s &&& 0x0F) ^^^ compute_syndrome_from_bus x) - 1)
        < 2 ^ 15 := by
      rw [Nat.shiftLeft_eq, Nat.one_mul]
      calc (2 : Nat) ^ (((s &&& 0x0F) ^^^ compute_syndrome_from_bus x) - 1)
          ≤ 2 ^ 14 := Nat.pow_le_pow_right (by norm_num) (by omega)
        _ < 2 ^ 15 := by norm_num
    rw [hfm, compute_syndrome_eq, mask15_of_lt (Nat.xor_lt_two_pow hx'lt hwlt),
      xorOfSetBits_flip _ 15 hk]
    have hts : ((s &&& 0x0F) ^^^ compute_syndrome_from_bus x) - 1 + 1
        = (s &&& 0x0F) ^^^ compute_syndrome_from_bus x := by omega
    rw [hts, ← compute_syndrome_eq,
      Nat.xor_comm (s &&& 0x0F) (compute_syndrome_from_bus x), ← Nat.xor_assoc,
      Nat.xor_self, Nat.zero_xor]

theorem process_nibble_lt (x s : Nat) : process_nibble x s < 2 ^ 15 := by
  rw [process_nibble]
  exact mask15_lt _

theorem process_nibble_masked (x s : Nat) :
    process_nibble x s &&& BUS_STATE_MASK = process_nibble x s :=
  mask15_of_lt (process_nibble_lt x s)

theorem encodeSeq_append (ss : List Nat) (s : Nat) :
    encodeSeq (ss ++ [s]) = process_nibble (encodeSeq ss) s := by
  rw [encodeSeq, encodeSeq, List.foldl_append, List.foldl_cons, List.foldl_nil]

/- ### Hamming-weight facts -/

theorem bitCount_zero_bits {x : Nat} :
    ∀ n, bitCount x n = 0 → ∀ j, j < n → x.testBit j = false := by
  intro n
  induction n with
  | zero => intro _ j hj; exact absurd hj (Nat.not_lt_zero j)
  | succ n ih =>
      intro h j hj
      simp only [bitCount] at h
      have hrec : bitCount x n = 0 := by omega
      rcases Nat.lt_succ_iff_lt_or_eq.mp hj with hlt | heq
      · exact ih hrec j hlt
      · subst heq
        cases hb : x.testBit j
        · rfl
        · rw [hb] at h; simp at h

theorem eq_zero_of_low_bits {x n : Nat} (hx : x < 2 ^ n)
    (h : ∀ j, j < n → x.testBit j = false) : x = 0 := by
  apply Nat.eq_of_testBit_eq
  intro i
  rw [Nat.zero_testBit]
  by_cases hi : i < n
  · exact h i hi
  · exact Nat.testBit_eq_false_of_lt
      (Nat.lt_of_lt_of_le hx (Nat.pow_le_pow_right (by norm_num) (Nat.le_of_not_lt hi)))

theorem testBit_true_of_bounds {x n : Nat} (h1 : 2 ^ n ≤ x) (h2 : x < 2 ^ (n + 1)) :
    x.testBit n = true := by
  have hdiv : x / 2 ^ n = 1 := by
    apply Nat.div_eq_of_lt_le
    · rwa [Nat.one_mul]
    · rw [Nat.pow_succ] at h2
      calc x < 2 ^ n * 2 := h2
        _ = (1 + 1) * 2 ^ n := by ring
  rw [Nat.testBit_to_div_mod, hdiv]
  rfl

theorem single_bit_of_bitCount_one {x : Nat} :
    ∀ n, x < 2 ^ n → bitCount x n = 1 → ∃ k, k < n ∧ x = 1 <<< k := by
  intro n
  induction n generalizing x with
  | zero =>
      intro hx h
      have hx0 : x = 0 := by omega
      subst hx0
      exact absurd h (by decide)
  | succ n ih =>
      intro hx h
      simp only [bitCount] at h
      cases hb : x.testBit n
      · rw [hb] at h
        simp at h
        have hxn : x < 2 ^ n := by
          by_contra hge
          have := testBit_true_of_bounds (Nat.le_of_not_lt hge) hx
          rw [this] at hb
          exact Bool.true_eq_false.mp hb
        obtain ⟨k, hk, hxk⟩ := ih hxn (by omega)
        exact ⟨k, Nat.lt_succ_of_lt hk, hxk⟩
      · rw [hb] at h
        simp at h
        have hlow : bitCount x n = 0 := by omega
        refine ⟨n, Nat.lt_succ_self n, ?_⟩
        have h2 : (1 : Nat) <<< n = 2 ^ n := by rw [Nat.shiftLeft_eq, Nat.one_mul]
        rw [h2]
        apply Nat.eq_of_testBit_eq
        intro i
        rcases Nat.lt_trichotomy i n with hlt | heq | hgt
        · rw [bitCount_zero_bits n hlow i hlt,
            Nat.testBit_two_pow_of_ne (Nat.ne_of_gt hlt)]
        · subst heq; rw [hb, Nat.testBit_two_pow_self]
        · rw [Nat.testBit_eq_false_of_lt
            (Nat.lt_of_lt_of_le hx (Nat.pow_le_pow_right (by norm_num) hgt)),
            Nat.testBit_two_pow_of_ne (Nat.ne_of_lt hgt)]

/- ### Small decidable facts about the 16 possible targets -/

theorem weight_find_minimal_w :
    ∀ t, t < 16 → weight15 (find_minimal_w t) = if t = 0 then 0 else 1 := by
  decide

theorem syndrome_find_minimal_w :
    ∀ t, t < 16 → compute_syndrome_from_bus (find_minimal_w t) = t := by
  decide

theorem syndrome_single_bit :
    ∀ k, k < 15 → compute_syndrome_from_bus (1 <<< k) = k + 1 := by
  decide

/- ### Shift-register output (shift_output.c) -/

/-- The bit-bang loop of `output_to_shift_registers`: for
`bit_pos = n-1` down to `0`, emit `(state_copy >> bit_pos) & 1` on the
data pin.  The returned list is the sequence of data-pin values in
emission order. -/
def shiftLoop (state_copy : Nat) : Nat → List Nat
  | 0 => []
  | n + 1 => ((state_copy >>> n) &&& 1) :: shiftLoop state_copy n

/-- `output_to_shift_registers` (shift_output.c): snapshot
`state_copy = current_bus_state & BUS_STATE_MASK` once at the start of
the call, then shift out the 15 bits MSB-first. -/
def output_to_shift_registers (state : Nat) : List Nat :=
  shiftLoop (state &&& BUS_STATE_MASK) HAMMING_N

theorem highbit_zero {x : Nat} (h : x < 2 ^ 15) : x &&& 0x8000 = 0 := by
  apply Nat.eq_of_testBit_eq
  intro i
  rw [Nat.zero_testBit, Nat.testBit_land]
  have h8 : (0x8000 : Nat) = 2 ^ 15 := by norm_num
  rw [h8, Nat.testBit_two_pow]
  by_cases hi : (15 : Nat) = i
  · subst hi
    simp [Nat.testBit_eq_false_of_lt h]
  · simp [hi]

/- ### Claim theorems -/

/-- C2: for every bus state x (bits above 14 ignored via masking),
`compute_syndrome_from_bus x` equals the XOR of (j+1) over all bit
positions j in [0,14] that are set in (the masked) x. -/
theorem C2_syndrome_correctness (x : Nat) :
    compute_syndrome_from_bus x = xorOfSetBits (x &&& 0x7FFF) 15 :=
  compute_syndrome_eq x

/-- C1: for every sequence of symbols fed one at a time to
`process_nibble` starting from the zero-initialized bus state, after
every call the syndrome of the resulting state equals the (4-bit-masked)
symbol just encoded. -/
theorem C1_differential_invariant (ss : List Nat) (s : Nat) :
    compute_syndrome_from_bus (encodeSeq (ss ++ [s])) = s &&& 0x0F := by
  rw [encodeSeq_append]
  exact syndrome_after_process (encodeSeq ss) s

/-- C3: for every target t in [0,15], `find_minimal_w t` has Hamming
weight 0 if t = 0 and exactly 1 otherwise, its syndrome is t, no 15-bit
vector of smaller weight has syndrome t, and it is the unique
minimum-weight solution. -/
theorem C3_minimal_weight_solution (t : Nat) (ht : t ≤ 15) :
    weight15 (find_minimal_w t) = (if t = 0 then 0 else 1) ∧
    compute_syndrome_from_bus (find_minimal_w t) = t ∧
    (∀ x, x < 2 ^ 15 → weight15 x < weight15 (find_minimal_w t) →
      compute_syndrome_from_bus x ≠ t) ∧
    (∀ x, x < 2 ^ 15 → weight15 x ≤ weight15 (find_minimal_w t) →
      compute_syndrome_from_bus x = t → x = find_minimal_w t) := by
  have ht16 : t < 16 := by omega
  have hw := weight_find_minimal_w t ht16
  have hs := syndrome_find_minimal_w t ht16
  refine ⟨hw, hs, ?_, ?_⟩
  · intro x hx hlt
    by_cases h0 : t = 0
    · rw [hw, if_pos h0] at hlt; omega
    · rw [hw, if_neg h0] at hlt
      have hw0 : weight15 x = 0 := by omega
      have hx0 : x = 0 :=
        eq_zero_of_low_bits hx (bitCount_zero_bits 15 hw0)
      subst hx0
      intro hcontra
      exact h0 (by simpa using hcontra.symm)
  · intro x hx hle hsx
    by_cases h0 : t = 0
    · rw [hw, if_pos h0] at hle
      have hw0 : weight15 x = 0 := by omega
      have hx0 : x = 0 :=
        eq_zero_of_low_bits hx (bitCount_zero_bits 15 hw0)
      subst h0
      rw [hx0]; rfl
    · rw [hw, if_neg h0] at hle
      rcases Nat.le_one_iff_eq_zero_or_eq_one.mp hle with hw0 | hw1
      · have hx0 : x = 0 :=
          eq_zero_of_low_bits hx (bitCount_zero_bits 15 hw0)
        subst hx0
        exact absurd (by simpa using hsx.symm) h0
      · obtain ⟨k, hk, hxk⟩ := single_bit_of_bitCount_one 15 hx hw1
        subst hxk
        have := syndrome_single_bit k hk
        rw [this] at hsx
        have hkt : k = t - 1 := by omega
        subst hkt
        have htm : t &&& 0x0F = t := mask4_of_lt ht16
        simp only [find_minimal_w, htm, if_neg h0]

/-- C3 witness: instantiation at the concrete target t = 11. -/
theorem C3_minimal_weight_solution_witness :
    weight15 (find_minimal_w 11) = (if (11 : Nat) = 0 then 0 else 1) ∧
    compute_syndrome_from_bus (find_minimal_w 11) = 11 :=
  ⟨(C3_minimal_weight_solution 11 (by norm_num)).1,
   (C3_minimal_weight_solution 11 (by norm_num)).2.1⟩

/-- C4: for every 15-bit encoder state x and every symbol s, the Hamming
distance between the state before and after one call to `process_nibble`
is at most 1, and it is exactly 0 iff the masked symbol equals the
syndrome of the previous state. -/
theorem C4_minimal_transition (x s : Nat) (hx : x < 2 ^ 15) :
    weight15 (x ^^^ process_nibble x s) ≤ 1 ∧
    (weight15 (x ^^^ process_nibble x s) = 0 ↔
      s &&& 0x0F = compute_syndrome_from_bus x) := by
  have hdiff : x ^^^ process_nibble x s
      = find_minimal_w ((s &&& 0x0F) ^^^ compute_syndrome_from_bus x) := by
    rw [process_nibble_eq, mask15_of_lt hx, ← Nat.xor_assoc, Nat.xor_self,
      Nat.zero_xor]
  have htlt : (s &&& 0x0F) ^^^ compute_syndrome_from_bus x < 16 := by
    have ha := mask4_lt s
    have hb := syndrome_lt x
    have h16 : (16 : Nat) = 2 ^ 4 := by norm_num
    rw [h16] at ha hb ⊢
    exact Nat.xor_lt_two_pow ha hb
  rw [hdiff, weight_find_minimal_w _ htlt]
  constructor
  · split <;> omega
  · by_cases h0 : (s &&& 0x0F) ^^^ compute_syndrome_from_bus x = 0
    · rw [if_pos h0]
      exact iff_of_true rfl (Nat.xor_eq_zero.mp h0)
    · rw [if_neg h0]
      exact iff_of_false (by omega) (fun heq => h0 (Nat.xor_eq_zero.mpr heq))

/-- C4 witness: instantiation at the concrete state 0x0400 and symbol 3. -/
theorem C4_minimal_transition_witness :
    (weight15 (1024 ^^^ process_nibble 1024 3) ≤ 1 ∧
      (weight15 (1024 ^^^ process_nibble 1024 3) = 0 ↔
        3 &&& 0x0F = compute_syndrome_from_bus 1024)) :=
  C4_minimal_transition 1024 3 (by norm_num)

/-- C7: out-of-range symbols are masked silently rather than rejected:
`process_nibble` behaves identically on s and on s &&& 0x0F (same final
state and same committed data-bit sequence), and `find_minimal_w`
behaves identically on t and on t &&& 0x0F. -/
theorem C7_mask_silently (x s t : Nat) :
    process_nibble x s = process_nibble x (s &&& 0x0F) ∧
    output_to_shift_registers (process_nibble x s)
      = output_to_shift_registers (process_nibble x (s &&& 0x0F)) ∧
    find_minimal_w t = find_minimal_w (t &&& 0x0F) := by
  have hps : process_nibble x s = process_nibble x (s &&& 0x0F) := by
    simp only [process_nibble, mask4_of_lt (mask4_lt s)]
  exact ⟨hps, congrArg output_to_shift_registers hps,
    by simp only [find_minimal_w, mask4_of_lt (mask4_lt t)]⟩

/-- C8: `process_nibble` is idempotent on the bus state: a repeated call
with the same symbol computes a zero correction vector and leaves the
state unchanged. -/
theorem C8_idempotent (x s : Nat) :
    process_nibble (process_nibble x s) s = process_nibble x s ∧
    find_minimal_w ((s &&& 0x0F) ^^^
      compute_syndrome_from_bus (process_nibble x s)) = 0 := by
  have hzero : (s &&& 0x0F) ^^^ compute_syndrome_from_bus (process_nibble x s)
      = 0 := by
    rw [syndrome_after_process x s, Nat.xor_self]
  have hfm0 : find_minimal_w 0 = 0 := rfl
  constructor
  · rw [process_nibble_eq (process_nibble x s) s, hzero, hfm0, Nat.xor_zero,
      process_nibble_masked]
  · rw [hzero, hfm0]

/-- C9: bits of the bus state outside the configured 15-bit width are
always zero: the state starts at zero, and after every call to
`process_nibble` the state has no bit in common with the complement
0x8000 of `BUS_STATE_MASK`, re-masking it is a no-op, and it is < 2^15. -/
theorem C9_width_invariant :
    encodeSeq [] = 0 ∧
    ∀ ss s, encodeSeq (ss ++ [s]) &&& 0x8000 = 0 ∧
      encodeSeq (ss ++ [s]) &&& 0x7FFF = encodeSeq (ss ++ [s]) ∧
      encodeSeq (ss ++ [s]) < 2 ^ 15 := by
  refine ⟨rfl, fun ss s => ?_⟩
  rw [encodeSeq_append]
  exact ⟨highbit_zero (process_nibble_lt _ _), process_nibble_masked _ _,
    process_nibble_lt _ _⟩

theorem shiftLoop_eq (m : Nat) :
    ∀ n, shiftLoop m n = (List.range n).map (fun i => (m >>> (n - 1 - i)) &&& 1) := by
  intro n
  induction n with
  | zero => rfl
  | succ n ih =>
      rw [List.range_succ_eq_map, List.map_cons, List.map_map]
      simp only [shiftLoop, ih]
      refine congrArg₂ List.cons (by norm_num) ?_
      rw [List.map_inj_left]
      intro a _
      have : n + 1 - 1 - (a + 1) = n - 1 - a := by omega
      simp only [Function.comp_apply, Nat.succ_eq_add_one, this]

/-- C10: one commit serializes the snapshot `state & BUS_STATE_MASK`
taken at the start of the call, emitting bit 14 first down to bit 0
last. -/
theorem C10_msb_first_serialization (x : Nat) :
    output_to_shift_registers x
      = (List.range 15).map (fun i => ((x &&& 0x7FFF) >>> (14 - i)) &&& 1) := by
  rw [output_to_shift_registers, HAMMING_N, shiftLoop_eq]
  rw [List.map_inj_left]
  intro a _
  have : 15 - 1 - a = 14 - a := by omega
  rw [this]
  rfl

/- ### Receiver sampling (Rx_input.c) -/

/-- `read_X_from_bus` (Rx_input.c, active-high variant): X[0..7] from
P2 bits 0..7, X[8..10] from P3 bits 5..7, X[11..14] left 0 from the
initial memset.  The function is given the sampled port values. -/
def read_X_from_bus (p2_val p3_val : Nat) : List Nat :=
  [ (p2_val >>> 0) &&& 1, (p2_val >>> 1) &&& 1, (p2_val >>> 2) &&& 1,
    (p2_val >>> 3) &&& 1, (p2_val >>> 4) &&& 1, (p2_val >>> 5) &&& 1,
    (p2_val >>> 6) &&& 1, (p2_val >>> 7) &&& 1,
    (p3_val >>> 5) &&& 1, (p3_val >>> 6) &&& 1, (p3_val >>> 7) &&& 1,
    0, 0, 0, 0 ]

/-- `read_X_from_bus` (Rx_input.c, active-low/inverting variant): a
grounded line (bit = 0) reads as logical 1. -/
def read_X_from_bus_inv (p2_val p3_val : Nat) : List Nat :=
  [ if p2_val &&& (1 <<< 0) = 0 then 1 else 0,
    if p2_val &&& (1 <<< 1) = 0 then 1 else 0,
    if p2_val &&& (1 <<< 2) = 0 then 1 else 0,
    if p2_val &&& (1 <<< 3) = 0 then 1 else 0,
    if p2_val &&& (1 <<< 4) = 0 then 1 else 0,
    if p2_val &&& (1 <<< 5) = 0 then 1 else 0,
    if p2_val &&& (1 <<< 6) = 0 then 1 else 0,
    if p2_val &&& (1 <<< 7) = 0 then 1 else 0,
    if p3_val &&& (1 <<< 5) = 0 then 1 else 0,
    if p3_val &&& (1 <<< 6) = 0 then 1 else 0,
    if p3_val &&& (1 <<< 7) = 0 then 1 else 0,
    0, 0, 0, 0 ]

theorem and1_01 (y : Nat) : y &&& 1 = 0 ∨ y &&& 1 = 1 := by
  rw [Nat.and_one_is_mod]
  exact Nat.mod_two_eq_zero_or_one y

theorem ite_01 (c : Prop) [Decidable c] :
    (if c then (1 : Nat) else 0) = 0 ∨ (if c then (1 : Nat) else 0) = 1 := by
  by_cases h : c <;> simp [h]

/-- C6: in both receiver variants, every sampled element is a 0/1 bit and
positions 11..14 are never driven by a physical line (always 0): only 11
of the 15 code positions are sampled. -/
theorem C6_rx_sampling (p2 p3 : Nat) :
    (∀ v ∈ read_X_from_bus p2 p3, v = 0 ∨ v = 1) ∧
    (read_X_from_bus p2 p3).length = 15 ∧
    (read_X_from_bus p2 p3).getD 11 1 = 0 ∧
    (read_X_from_bus p2 p3).getD 12 1 = 0 ∧
    (read_X_from_bus p2 p3).getD 13 1 = 0 ∧
    (read_X_from_bus p2 p3).getD 14 1 = 0 ∧
    (∀ v ∈ read_X_from_bus_inv p2 p3, v = 0 ∨ v = 1) ∧
    (read_X_from_bus_inv p2 p3).length = 15 ∧
    (read_X_from_bus_inv p2 p3).getD 11 1 = 0 ∧
    (read_X_from_bus_inv p2 p3).getD 12 1 = 0 ∧
    (read_X_from_bus_inv p2 p3).getD 13 1 = 0 ∧
    (read_X_from_bus_inv p2 p3).getD 14 1 = 0 := by
  refine ⟨?_, rfl, rfl, rfl, rfl, rfl, ?_, rfl, rfl, rfl, rfl, rfl⟩
  · intro v hv
    simp only [read_X_from_bus, List.mem_cons, List.not_mem_nil, or_false] at hv
    rcases hv with rfl | rfl | rfl | rfl | rfl | rfl | rfl | rfl | rfl | rfl |
      rfl | rfl | rfl | rfl | rfl <;>
      first
        | exact and1_01 _
        | exact Or.inl rfl
  · intro v hv
    simp only [read_X_from_bus_inv, List.mem_cons, List.not_mem_nil,
      or_false] at hv
    rcases hv with rfl | rfl | rfl | rfl | rfl | rfl | rfl | rfl | rfl | rfl |
      rfl | rfl | rfl | rfl | rfl <;>
      first
        | exact ite_01 _
        | exact Or.inl rfl

/- ### Receiver decode path and the encoder/receiver round trip -/

theorem shr_and_one (y j : Nat) :
    (y >>> j) &&& 1 = if y.testBit j then 1 else 0 := by
  rw [Nat.and_one_is_mod, Nat.shiftRight_eq_div_pow, Nat.testBit_to_div_mod]
  rcases Nat.mod_two_eq_zero_or_one (y / 2 ^ j) with h | h <;> simp [h]

/-- Modelled from the spec: the receiver-side syndrome computation
(`get_S_from_X` followed by `bits_to_decimal` in the receiver's `main`,
whose definitions are not present under src/).  Per §4.5 of the spec the
decoder runs `LinearSyndromeMap.syndrome` on the sampled vector X: XOR
of (j+1) over all positions j < n with X[j] set. -/
def get_S_from_X_value (X : List Nat) : Nat → Nat
  | 0 => 0
  | n + 1 => get_S_from_X_value X n ^^^ (if X.getD n 0 ≠ 0 then n + 1 else 0)

/-- Modelled from the spec: the decoded symbol of a sampled 15-entry
vector (the `decimal_value` the receiver's `main` reports). -/
def rx_decode (X : List Nat) : Nat := get_S_from_X_value X HAMMING_N

theorem decode_eq_xorOfSetBits {X : List Nat} {x : Nat} :
    ∀ n, (∀ j, j < n → X.getD j 0 = if x.testBit j then 1 else 0) →
      get_S_from_X_value X n = xorOfSetBits x n := by
  intro n
  induction n with
  | zero => intro _; rfl
  | succ n ih =>
      intro h
      have hn := h n (Nat.lt_succ_self n)
      simp only [get_S_from_X_value, xorOfSetBits]
      rw [ih (fun j hj => h j (Nat.lt_succ_of_lt hj))]
      cases hb : x.testBit n
      · rw [hb] at hn
        simp at hn
        simp [hn]
      · rw [hb] at hn
        simp at hn
        simp [hn]

/-- The physical wiring documented in Rx_input.c: bus-state bits 0..7
arrive on P2.0..P2.7 and bits 8..10 on P3.5..P3.7, so the sampled port
values for a committed state x are `x &&& 0xFF` and
`(x >>> 3) &&& 0xE0`.  Every entry the receiver builds from them is the
corresponding state bit, provided the state fits in the 11 wired
lines. -/
theorem sampled_entry (x : Nat) (hx : x < 2 ^ 11) :
    ∀ j, j < 15 →
      (read_X_from_bus (x &&& 0xFF) ((x >>> 3) &&& 0xE0)).getD j 0
        = if x.testBit j then 1 else 0 := by
  intro j hj
  interval_cases j
  · show ((x &&& 0xFF) >>> 0) &&& 1 = _
    rw [shr_and_one, Nat.testBit_land,
      (by decide : (0xFF : Nat).testBit 0 = true), Bool.and_true]
  · show ((x &&& 0xFF) >>> 1) &&& 1 = _
    rw [shr_and_one, Nat.testBit_land,
      (by decide : (0xFF : Nat).testBit 1 = true), Bool.and_true]
  · show ((x &&& 0xFF) >>> 2) &&& 1 = _
    rw [shr_and_one, Nat.testBit_land,
      (by decide : (0xFF : Nat).testBit 2 = true), Bool.and_true]
  · show ((x &&& 0xFF) >>> 3) &&& 1 = _
    rw [shr_and_one, Nat.testBit_land,
      (by decide : (0xFF : Nat).testBit 3 = true), Bool.and_true]
  · show ((x &&& 0xFF) >>> 4) &&& 1 = _
    rw [shr_and_one, Nat.testBit_land,
      (by decide : (0xFF : Nat).testBit 4 = true), Bool.and_true]
  · show ((x &&& 0xFF) >>> 5) &&& 1 = _
    rw [shr_and_one, Nat.testBit_land,
      (by decide : (0xFF : Nat).testBit 5 = true), Bool.and_true]
  · show ((x &&& 0xFF) >>> 6) &&& 1 = _
    rw [shr_and_one, Nat.testBit_land,
      (by decide : (0xFF : Nat).testBit 6 = true), Bool.and_true]
  · show ((x &&& 0xFF) >>> 7) &&& 1 = _
    rw [shr_and_one, Nat.testBit_land,
      (by decide : (0xFF : Nat).testBit 7 = true), Bool.and_true]
  · show (((x >>> 3) &&& 0xE0) >>> 5) &&& 1 = _
    rw [shr_and_one, Nat.testBit_land,
      (by decide : (0xE0 : Nat).testBit 5 = true), Bool.and_true,
      Nat.testBit_shiftRight]
  · show (((x >>> 3) &&& 0xE0) >>> 6) &&& 1 = _
    rw [shr_and_one, Nat.testBit_land,
      (by decide : (0xE0 : Nat).testBit 6 = true), Bool.and_true,
      Nat.testBit_shiftRight]
  · show (((x >>> 3) &&& 0xE0) >>> 7) &&& 1 = _
    rw [shr_and_one, Nat.testBit_land,
      (by decide : (0xE0 : Nat).testBit 7 = true), Bool.and_true,
      Nat.testBit_shiftRight]
  · show (0 : Nat) = _
    rw [Nat.testBit_eq_false_of_lt (Nat.lt_of_lt_of_le hx (by norm_num))]
    rfl
  · show (0 : Nat) = _
    rw [Nat.testBit_eq_false_of_lt (Nat.lt_of_lt_of_le hx (by norm_num))]
    rfl
  · show (0 : Nat) = _
    rw [Nat.testBit_eq_false_of_lt (Nat.lt_of_lt_of_le hx (by norm_num))]
    rfl
  · show (0 : Nat) = _
    rw [Nat.testBit_eq_false_of_lt (Nat.lt_of_lt_of_le hx (by norm_num))]
    rfl

/-- C5 counterexample: encoding the single symbol 0xC leaves the bus in
state 0x0800 (bit 11), which the receiver never samples, so the decoded
value is 0, not 0xC. -/
theorem C5_roundtrip_counterexample :
    encodeSeq [12] = 2048 ∧
    rx_decode (read_X_from_bus (encodeSeq [12] &&& 0xFF)
      ((encodeSeq [12] >>> 3) &&& 0xE0)) = 0 ∧
    ¬ rx_decode (read_X_from_bus (encodeSeq [12] &&& 0xFF)
      ((encodeSeq [12] >>> 3) &&& 0xE0)) = 12 &&& 0x0F := by
  decide

/-- C5 (amended): for every symbol sequence whose committed bus state
fits in the 11 physically sampled lines (state < 2^11), decoding the
committed state through the receiver path reproduces the last encoded
symbol exactly. -/
theorem C5_roundtrip_amended (ss : List Nat) (s : Nat)
    (h : encodeSeq (ss ++ [s]) < 2 ^ 11) :
    rx_decode (read_X_from_bus (encodeSeq (ss ++ [s]) &&& 0xFF)
      ((encodeSeq (ss ++ [s]) >>> 3) &&& 0xE0)) = s &&& 0x0F := by
  have hx15 : encodeSeq (ss ++ [s]) < 2 ^ 15 :=
    Nat.lt_of_lt_of_le h (by norm_num)
  have h1 : compute_syndrome_from_bus (encodeSeq (ss ++ [s])) = s &&& 0x0F := by
    rw [encodeSeq_append]
    exact syndrome_after_process _ _
  rw [rx_decode, HAMMING_N, decode_eq_xorOfSetBits 15 (sampled_entry _ h)]
  rw [← mask15_of_lt hx15, ← compute_syndrome_eq, h1]

/-- C5 witness for the amended statement: the single-symbol sequence
[5] commits state 0x0010 and decodes back to 5. -/
theorem C5_roundtrip_amended_witness :
    encodeSeq ([] ++ [5]) < 2 ^ 11 ∧
    rx_decode (read_X_from_bus (encodeSeq ([] ++ [5]) &&& 0xFF)
      ((encodeSeq ([] ++ [5]) >>> 3) &&& 0xE0)) = 5 &&& 0x0F :=
  ⟨by decide, C5_roundtrip_amended [] 5 (by decide)⟩

end AducBus
